import Mathlib

/-!
Verification of the `merklekeystore` package: a forward-secure, range-bounded
ephemeral signing scheme.  A `Signer` commits, via a Merkle tree, to one
one-time verifying key per round in a validity interval `[FirstValid, LastValid]`;
each `Signature` carries the key, its position, the round, an audit path, and
the byte signature, and a `Verifier` holding only the root and the range checks
all of it.

The package implementation itself is not among the available sources (only its
test file is), so the data model and operations are modelled from the
specification (sections 3, 4, 6, 7 of the spec), with the test file fixing
names and observable behaviour.  Collaborator primitives (the hash and the
one-time signature scheme) are opaque in the spec; they are modelled here as
concrete injective functions, the standard idealization of a collision-free
hash and of a deterministic signature scheme with unique accepting signatures.
-/

namespace Merklekeystore

/-- Digests are modelled as natural numbers. -/
abbrev Digest := Nat

/-- Modelled from the spec: the hashing/digest primitive (spec section 6) is an
opaque collision-resistant two-input combiner; it is idealized as the injective
Cantor-style pairing function (shifted by one so that a combined node is
strictly larger than each of its children). -/
def hash2 (a b : Nat) : Digest := Nat.pair a b + 1

theorem hash2_inj {a b c d : Nat} (h : hash2 a b = hash2 c d) : a = c ∧ b = d := by
  have h2 : Nat.pair a b = Nat.pair c d := by
    have := Nat.succ_injective h
    exact this
  exact Nat.pair_eq_pair.mp h2

theorem lt_hash2_left (a b : Nat) : a < hash2 a b :=
  Nat.lt_succ_of_le (Nat.left_le_pair a b)

theorem lt_hash2_right (a b : Nat) : b < hash2 a b :=
  Nat.lt_succ_of_le (Nat.right_le_pair a b)

/-- One combination step of the verifier's root recomputation: the parity of
the position decides whether the current node is a left or a right child. -/
def combineStep (pos : Nat) (cur sib : Digest) : Digest :=
  if pos % 2 = 0 then hash2 cur sib else hash2 sib cur

theorem lt_combineStep (pos : Nat) (cur sib : Digest) : cur < combineStep pos cur sib := by
  unfold combineStep
  split
  · exact lt_hash2_left cur sib
  · exact lt_hash2_right sib cur

theorem combineStep_inj {pos : Nat} {c1 s1 c2 s2 : Digest}
    (h : combineStep pos c1 s1 = combineStep pos c2 s2) : c1 = c2 ∧ s1 = s2 := by
  unfold combineStep at h
  split at h
  · exact hash2_inj h
  · exact ⟨(hash2_inj h).2, (hash2_inj h).1⟩

/-- Modelled from the spec (section 4.2, `verify`): recompute the root by
combining the leaf's digest with each proof digest in order, using the
position's bit pattern to decide left/right combination at each level. -/
def recompute : Nat → Digest → List Digest → Digest
  | _, cur, [] => cur
  | pos, cur, sib :: rest => recompute (pos / 2) (combineStep pos cur sib) rest

/-- Modelled from the spec (section 4.2, tree construction): the root of the
perfect binary tree of depth `d` over the leaf sequence `f 0, f 1, ...`
(the caller pads the leaf sequence up to a power of two). -/
def treeRoot : Nat → (Nat → Digest) → Digest
  | 0, f => f 0
  | d + 1, f => hash2 (treeRoot d f) (treeRoot d (fun i => f (i + 2 ^ d)))

/-- Modelled from the spec (section 4.2, `prove` at a single position): the
classic audit path for leaf `p` in the depth-`d` tree over `f`, ordered from
the leaf level up to the level below the root. -/
def auditPath : Nat → (Nat → Digest) → Nat → List Digest
  | 0, _, _ => []
  | d + 1, f, p =>
    if p < 2 ^ d then
      auditPath d f p ++ [treeRoot d (fun i => f (i + 2 ^ d))]
    else
      auditPath d (fun i => f (i + 2 ^ d)) (p - 2 ^ d) ++ [treeRoot d f]

theorem auditPath_length (d : Nat) (f : Nat → Digest) (p : Nat) :
    (auditPath d f p).length = d := by
  induction d generalizing f p with
  | zero => rfl
  | succ d ih =>
    unfold auditPath
    split <;> simp [ih]

theorem recompute_append (pf1 : List Digest) (pf2 : List Digest) (pos : Nat) (cur : Digest) :
    recompute pos cur (pf1 ++ pf2) =
      recompute (pos / 2 ^ pf1.length) (recompute pos cur pf1) pf2 := by
  induction pf1 generalizing pos cur with
  | nil => simp [recompute]
  | cons s r ih =>
    have h2 : pos / 2 / 2 ^ r.length = pos / 2 ^ (s :: r).length := by
      rw [Nat.div_div_eq_div_mul, List.length_cons, pow_succ, mul_comm (2 ^ r.length) 2]
    calc recompute pos cur (s :: r ++ pf2)
        = recompute (pos / 2) (combineStep pos cur s) (r ++ pf2) := rfl
      _ = recompute (pos / 2 / 2 ^ r.length)
            (recompute (pos / 2) (combineStep pos cur s) r) pf2 := ih _ _
      _ = recompute (pos / 2 ^ (s :: r).length) (recompute pos cur (s :: r)) pf2 := by
            rw [h2]
            rfl

theorem recompute_auditPath (d : Nat) (f : Nat → Digest) (p q : Nat)
    (hp : p < 2 ^ d) (hq : q % 2 ^ d = p) :
    recompute q (f p) (auditPath d f p) = treeRoot d f := by
  induction d generalizing f p q with
  | zero =>
    interval_cases p
    rfl
  | succ d ih =>
    have hmod : q % 2 ^ d = p % 2 ^ d := by
      conv_lhs => rw [← Nat.mod_mod_of_dvd q (pow_dvd_pow 2 (Nat.le_succ d))]
      rw [hq]
    have hdiv : q / 2 ^ d % 2 = p / 2 ^ d := by
      have h1 : q % (2 ^ d * 2) / 2 ^ d = q / 2 ^ d % 2 :=
        Nat.mod_mul_right_div_self q (2 ^ d) 2
      rw [← h1, ← pow_succ, hq]
    by_cases hcase : p < 2 ^ d
    · rw [auditPath, if_pos hcase, recompute_append, auditPath_length]
      rw [ih f p q hcase (by rw [hmod, Nat.mod_eq_of_lt hcase])]
      have hp0 : p / 2 ^ d = 0 := Nat.div_eq_of_lt hcase
      simp only [recompute, combineStep, hdiv, hp0]
      rw [treeRoot]
      simp
    · push_neg at hcase
      set g := fun i => f (i + 2 ^ d) with hg
      have hps : p < 2 * 2 ^ d := by
        have h2d : (2 : Nat) ^ (d + 1) = 2 * 2 ^ d := by rw [pow_succ, mul_comm]
        omega
      have hpsub : p - 2 ^ d < 2 ^ d := by omega
      have hfp : f p = g (p - 2 ^ d) := by
        simp only [hg]
        congr 1
        omega
      have hq' : q % 2 ^ d = p - 2 ^ d := by
        rw [hmod]
        conv_lhs => rw [show p = (p - 2 ^ d) + 2 ^ d by omega]
        rw [Nat.add_mod_right, Nat.mod_eq_of_lt hpsub]
      rw [auditPath, if_neg (by omega), recompute_append, auditPath_length]
      rw [hfp, ih g (p - 2 ^ d) q hpsub hq']
      have hp1 : p / 2 ^ d = 1 := by
        rw [show p = (p - 2 ^ d) + 2 ^ d by omega, Nat.add_div_right _ (pow_pos (by norm_num) d),
          Nat.div_eq_of_lt hpsub]
      simp only [recompute, combineStep, hdiv, hp1]
      rw [treeRoot]
      simp

theorem le_recompute (pf : List Digest) (pos : Nat) (cur : Digest) :
    cur ≤ recompute pos cur pf := by
  induction pf generalizing pos cur with
  | nil => exact Nat.le_refl cur
  | cons s r ih =>
    calc cur ≤ combineStep pos cur s := Nat.le_of_lt (lt_combineStep pos cur s)
    _ ≤ recompute (pos / 2) (combineStep pos cur s) r := ih _ _
    _ = recompute pos cur (s :: r) := rfl

theorem lt_recompute (pf : List Digest) (pos : Nat) (cur : Digest) (h : pf ≠ []) :
    cur < recompute pos cur pf := by
  match pf with
  | [] => exact absurd rfl h
  | s :: r =>
    calc cur < combineStep pos cur s := lt_combineStep pos cur s
    _ ≤ recompute (pos / 2) (combineStep pos cur s) r := le_recompute _ _ _
    _ = recompute pos cur (s :: r) := rfl

theorem recompute_inj_len (pf1 pf2 : List Digest) (pos : Nat) (c1 c2 : Digest)
    (hlen : pf1.length = pf2.length)
    (h : recompute pos c1 pf1 = recompute pos c2 pf2) : c1 = c2 ∧ pf1 = pf2 := by
  induction pf1 generalizing pf2 pos c1 c2 with
  | nil =>
    match pf2 with
    | [] => exact ⟨h, rfl⟩
    | s :: r => simp at hlen
  | cons s1 r1 ih =>
    match pf2 with
    | [] => simp at hlen
    | s2 :: r2 =>
      simp only [List.length_cons, Nat.add_right_cancel_iff] at hlen
      simp only [recompute] at h
      obtain ⟨hc, hr⟩ := ih r2 (pos / 2) _ _ hlen h
      obtain ⟨h1, h2⟩ := combineStep_inj hc
      exact ⟨h1, by rw [h2, hr]⟩


/-- Modelled from the spec (section 7): the error taxonomy of the package.
The spec names no dedicated error for the verifier's position/round
consistency check; this model reports it as `proofInvalid` (the forged
position defeats the proof's position binding).  No claim depends on which
error value is returned, only on error versus success. -/
inductive KeystoreError where
  | invalidRange
  | outOfRange
  | positionOutOfRange
  | proofInvalid
  | signatureInvalid
  | decodingError
deriving DecidableEq

/-- Modelled from the spec (section 6): one one-time signing/verifying keypair
(Go `crypto.SignatureAlgorithm`).  Keys are modelled as naturals; the
zero-valued record is the degenerate placeholder (Go
`crypto.SignatureAlgorithm{}`). -/
structure SignatureAlgorithm where
  sk : Nat
  vk : Nat
deriving DecidableEq

/-- The zero-valued placeholder keypair (Go `crypto.SignatureAlgorithm{}`). -/
def placeholderKey : SignatureAlgorithm := ⟨0, 0⟩

/-- Modelled from the spec (sections 4.1, 6): the key-generation capability.
Randomness is modelled as deterministic seeding by position; the generated
keypair is non-degenerate and no two positions share a keypair. -/
def genKeyPair (p : Nat) : SignatureAlgorithm := ⟨p + 1, p + 1⟩

/-- Modelled from the spec (section 6): the one-time signing primitive, a
deterministic scheme producing a one-element byte sequence. -/
def otSign (sk : Nat) (m : Nat) : List Nat := [hash2 sk m]

/-- Modelled from the spec (section 6): the one-time verification primitive.
It accepts exactly the signature `otSign` produces for the key matching `vk`
(in this model `sk = vk`), the idealization of a scheme with unique accepting
signatures. -/
def otVerify (vk : Nat) (m : Nat) (bs : List Nat) : Bool := bs == [hash2 vk m]

/-- Modelled from the spec (section 3): the ephemeral key bank — the ordered
keypair sequence plus the validity range (Go `EphemeralKeys` with its
`SignatureAlgorithms` slice). -/
structure EphemeralKeys where
  SignatureAlgorithms : List SignatureAlgorithm
  FirstValid : Nat
  LastValid : Nat
deriving DecidableEq

/-- Modelled from the spec (section 4.3): the Signer owns the ephemeral key
bank (the Merkle commitment is recomputed from it on demand, which is
observationally equal to storing it). -/
structure Signer where
  EphemeralKeys : EphemeralKeys
deriving DecidableEq

/-- Modelled from the spec (section 3): the verifying-key unit carried inside
a signature: the one-time key, its position, and the round. -/
structure VKey where
  VerifyingKey : Nat
  Pos : Nat
  Round : Nat
deriving DecidableEq

/-- Modelled from the spec (section 3): a proof-carrying signature. -/
structure Signature where
  VKey : VKey
  Proof : List Digest
  ByteSignature : List Nat
deriving DecidableEq

instance : Inhabited Signature := ⟨⟨⟨0, 0, 0⟩, [], []⟩⟩

/-- Modelled from the spec (section 4.4): the Verifier owns only the root and
the validity range. -/
structure Verifier where
  Root : Digest
  FirstValid : Nat
  LastValid : Nat
deriving DecidableEq

namespace Signer

def first (s : Signer) : Nat := s.EphemeralKeys.FirstValid

def last (s : Signer) : Nat := s.EphemeralKeys.LastValid

def keys (s : Signer) : List SignatureAlgorithm := s.EphemeralKeys.SignatureAlgorithms

def numKeys (s : Signer) : Nat := s.keys.length

end Signer

/-- Modelled from the spec (section 4.2): the canonical leaf encoding for
position `p` combines the verifying key with `p`, binding the position into
the hash. -/
def leafDigest (p : Nat) (vk : Nat) : Digest := hash2 p vk

/-- Ceiling base-two logarithm with explicit fuel (the fuel makes the
recursion structural, so that the definition evaluates by kernel
reduction). -/
def depthFuel : Nat → Nat → Nat
  | 0, _ => 0
  | fuel + 1, target => if target ≤ 1 then 0 else depthFuel fuel ((target + 1) / 2) + 1

/-- The depth of the committed tree over `n` leaves: the leaf sequence is
padded up to the next power of two (the spec leaves the padding rule to the
implementer; this model pads with zero digests). -/
def treeDepth (n : Nat) : Nat := depthFuel n n

theorem le_two_pow_depthFuel (fuel target : Nat) (h : target ≤ fuel) :
    target ≤ 2 ^ depthFuel fuel target := by
  induction fuel generalizing target with
  | zero =>
    simp only [depthFuel]
    omega
  | succ fuel ih =>
    unfold depthFuel
    split
    · omega
    · rename_i h1
      push_neg at h1
      have hf : (target + 1) / 2 ≤ fuel := by omega
      have := ih ((target + 1) / 2) hf
      rw [pow_succ]
      omega

theorem le_two_pow_treeDepth (n : Nat) : n ≤ 2 ^ treeDepth n :=
  le_two_pow_depthFuel n n (Nat.le_refl n)

/-- The padded leaf-digest sequence of a signer's key bank. -/
def leafFun (s : Signer) : Nat → Digest := fun i =>
  if i < s.keys.length then leafDigest i ((s.keys.getD i placeholderKey).vk) else 0

/-- The Merkle commitment root over the signer's key bank. -/
def Signer.Root (s : Signer) : Digest := treeRoot (treeDepth s.numKeys) (leafFun s)

/-- Modelled from the spec (sections 4.1, 4.3): `New` fails with
`InvalidRange` when `first > last` and otherwise generates one keypair per
position `0 .. last - first`. -/
def New (first lastRound : Nat) : Except KeystoreError Signer :=
  if lastRound < first then .error .invalidRange
  else .ok ⟨⟨(List.range (lastRound - first + 1)).map genKeyPair, first, lastRound⟩⟩

/-- Modelled from the spec (section 4.1): the single source of truth for the
round-to-position mapping: `round - first` when `first ≤ round ≤ last`,
`OutOfRange` otherwise. -/
def Signer.getKeyPosition (s : Signer) (round : Nat) : Except KeystoreError Nat :=
  if round < s.first then .error .outOfRange
  else if s.last < round then .error .outOfRange
  else .ok (round - s.first)

/-- Modelled from the spec (sections 4.2, 4.3): `Prove` — the audit path for a
single committed position (the only case the spec's scenarios exercise; a
batched minimal proof for several positions is not modelled). -/
def Signer.Prove (s : Signer) (positions : List Nat) : Except KeystoreError (List Digest) :=
  match positions with
  | [p] =>
    if p < s.numKeys then .ok (auditPath (treeDepth s.numKeys) (leafFun s) p)
    else .error .positionOutOfRange
  | _ => .error .positionOutOfRange

/-- Modelled from the spec (section 4.3): `sign`, parameterized by the
one-time signing primitive so that the cheap-check-first ordering (range
rejection before any cryptographic work) is visible: an out-of-range round is
rejected identically for every primitive. -/
def SignWith (otS : Nat → Nat → List Nat) (s : Signer) (m : Nat) (round : Nat) :
    Except KeystoreError Signature :=
  match s.getKeyPosition round with
  | .error e => .error e
  | .ok pos =>
    let key := s.keys.getD pos placeholderKey
    .ok { VKey := { VerifyingKey := key.vk, Pos := pos, Round := round },
          Proof := auditPath (treeDepth s.numKeys) (leafFun s) pos,
          ByteSignature := otS key.sk m }

/-- Modelled from the spec (section 4.3): `Sign` instantiates `SignWith` with
the modelled one-time signing primitive. -/
def Signer.Sign (s : Signer) (m : Nat) (round : Nat) : Except KeystoreError Signature :=
  SignWith otSign s m round

/-- Modelled from the spec (section 4.4): the Verifier is constructed from the
root and the range only. -/
def Signer.GetVerifier (s : Signer) : Verifier := ⟨s.Root, s.first, s.last⟩

/-- Modelled from the spec (section 4.4): `verify` — four mandatory checks,
short-circuiting on the first failure: range check, position/round
consistency check, Merkle check, cryptographic check.  The outcome is
reported as an error value: success is `.ok ()`. -/
def Verifier.Verify (v : Verifier) (m : Nat) (sig : Signature) : Except KeystoreError Unit :=
  if sig.VKey.Round < v.FirstValid ∨ v.LastValid < sig.VKey.Round then .error .outOfRange
  else if sig.VKey.Round - v.FirstValid ≠ sig.VKey.Pos then .error .proofInvalid
  else if recompute sig.VKey.Pos (leafDigest sig.VKey.Pos sig.VKey.VerifyingKey) sig.Proof
      ≠ v.Root then .error .proofInvalid
  else if otVerify sig.VKey.VerifyingKey m sig.ByteSignature then .ok ()
  else .error .signatureInvalid

theorem New_ok_iff (first lastRound : Nat) (s : Signer) :
    New first lastRound = .ok s ↔
      first ≤ lastRound ∧
        s = ⟨⟨(List.range (lastRound - first + 1)).map genKeyPair, first, lastRound⟩⟩ := by
  unfold New
  split
  · constructor
    · intro h
      exact absurd h (by simp)
    · intro ⟨h1, _⟩
      omega
  · constructor
    · intro h
      refine ⟨by omega, ?_⟩
      cases h
      rfl
    · intro ⟨_, h2⟩
      rw [h2]

theorem keys_of_New (first lastRound : Nat) (s : Signer) (h : New first lastRound = .ok s) :
    s.keys = (List.range (lastRound - first + 1)).map genKeyPair ∧
      s.first = first ∧ s.last = lastRound ∧ first ≤ lastRound := by
  obtain ⟨h1, h2⟩ := (New_ok_iff first lastRound s).mp h
  subst h2
  exact ⟨rfl, rfl, rfl, h1⟩

theorem keys_getD_range (n p : Nat) (z : SignatureAlgorithm) (hp : p < n) :
    ((List.range n).map genKeyPair).getD p z = genKeyPair p := by
  rw [List.getD_eq_getElem _ _ (by simpa using hp)]
  simp

theorem getKeyPosition_in_range (s : Signer) (r : Nat)
    (h1 : s.first ≤ r) (h2 : r ≤ s.last) :
    s.getKeyPosition r = .ok (r - s.first) := by
  unfold Signer.getKeyPosition
  rw [if_neg (by omega), if_neg (by omega)]

theorem getKeyPosition_out_of_range (s : Signer) (r : Nat)
    (h : r < s.first ∨ s.last < r) :
    s.getKeyPosition r = .error .outOfRange := by
  unfold Signer.getKeyPosition
  rcases h with h | h
  · rw [if_pos h]
  · by_cases hf : r < s.first
    · rw [if_pos hf]
    · rw [if_neg hf, if_pos h]

theorem Verify_eq_ok_iff (v : Verifier) (m : Nat) (sig : Signature) :
    v.Verify m sig = .ok () ↔
      (v.FirstValid ≤ sig.VKey.Round ∧ sig.VKey.Round ≤ v.LastValid ∧
        sig.VKey.Round - v.FirstValid = sig.VKey.Pos ∧
        recompute sig.VKey.Pos (leafDigest sig.VKey.Pos sig.VKey.VerifyingKey) sig.Proof
          = v.Root ∧
        otVerify sig.VKey.VerifyingKey m sig.ByteSignature = true) := by
  unfold Verifier.Verify
  split
  · rename_i hr
    constructor
    · intro h
      exact absurd h (by simp)
    · rintro ⟨h1, h2, -⟩
      omega
  · rename_i hr
    push_neg at hr
    split
    · rename_i hpos
      constructor
      · intro h
        exact absurd h (by simp)
      · rintro ⟨-, -, h3, -⟩
        exact absurd h3 hpos
    · rename_i hpos
      push_neg at hpos
      split
      · rename_i hmk
        constructor
        · intro h
          exact absurd h (by simp)
        · rintro ⟨-, -, -, h4, -⟩
          exact absurd h4 hmk
      · rename_i hmk
        push_neg at hmk
        split
        · rename_i hcr
          constructor
          · intro _
            exact ⟨hr.1, hr.2, hpos, hmk, hcr⟩
          · intro _
            rfl
        · rename_i hcr
          constructor
          · intro h
            exact absurd h (by simp)
          · rintro ⟨-, -, -, -, h5⟩
            exact absurd h5 hcr

theorem Verify_not_ok_error (v : Verifier) (m : Nat) (sig : Signature)
    (h : v.Verify m sig ≠ .ok ()) : ∃ e, v.Verify m sig = .error e := by
  match hx : v.Verify m sig with
  | .ok u =>
    cases u
    exact absurd hx h
  | .error e => exact ⟨e, rfl⟩

theorem getD_set_self (l : List Nat) (i a d : Nat) (h : i < l.length) :
    (l.set i a).getD i d = a := by
  rw [List.getD_eq_getElem _ _ (by simpa using h)]
  exact List.getElem_set_self (by simpa using h)

/-- A concrete signer over the range `[0, 1]`, used by the witness theorems;
it is the signer `New 0 1` constructs. -/
def dSigner : Signer := ⟨⟨[genKeyPair 0, genKeyPair 1], 0, 1⟩⟩

/-- A concrete message used by the witness theorems. -/
def dMsg : Nat := 7

/-- The signature `dSigner` produces for `dMsg` at round `1`, used by the
witness theorems. -/
def dSig : Signature := (dSigner.Sign dMsg 1).toOption.getD default

/-- A concrete signer over the range `[50, 100]`, used by the witness
theorems; it is the signer `New 50 100` constructs. -/
def dSigner50 : Signer := ⟨⟨(List.range 51).map genKeyPair, 50, 100⟩⟩

/-- C6: for all round numbers `first` and `last`, `New first last scheme`
succeeds whenever `first ≤ last` (including `first = last`) and fails with an
`InvalidRange` error whenever `first > last`. -/
theorem New_succeeds_iff_range_valid (first lastRound : Nat) :
    (first ≤ lastRound → ∃ s, New first lastRound = .ok s) ∧
      (lastRound < first → New first lastRound = .error .invalidRange) := by
  constructor
  · intro h
    exact ⟨_, (New_ok_iff first lastRound _).mpr ⟨h, rfl⟩⟩
  · intro h
    unfold New
    rw [if_pos h]

/-- Witness for C6 at the concrete ranges `[0, 0]` (success, `first = last`)
and `[1, 0]` (failure). -/
theorem New_succeeds_iff_range_valid_witness :
    (∃ s, New 0 0 = .ok s) ∧ New 1 0 = .error .invalidRange :=
  ⟨(New_succeeds_iff_range_valid 0 0).1 (Nat.le_refl 0),
    (New_succeeds_iff_range_valid 1 0).2 (by decide)⟩

/-- C5: for every signer over `[first, last]`, `getKeyPosition r` returns
`r - first` for every in-range round and fails with `OutOfRange` for every
out-of-range round; concretely, for the range `[1000, 1100]`:
`getKeyPosition 1000 = 0`, `getKeyPosition 1099 = 99`, and
`getKeyPosition 999` and `getKeyPosition 1101` both fail. -/
theorem getKeyPosition_spec :
    (∀ first lastRound s, New first lastRound = .ok s → ∀ r,
        (first ≤ r → r ≤ lastRound → s.getKeyPosition r = .ok (r - first)) ∧
          ((r < first ∨ lastRound < r) → s.getKeyPosition r = .error .outOfRange)) ∧
      (New 1000 1100).bind (fun s => s.getKeyPosition 1000) = .ok 0 ∧
      (New 1000 1100).bind (fun s => s.getKeyPosition 1099) = .ok 99 ∧
      (New 1000 1100).bind (fun s => s.getKeyPosition 999) = .error .outOfRange ∧
      (New 1000 1100).bind (fun s => s.getKeyPosition 1101) = .error .outOfRange := by
  refine ⟨?_, by rfl, by rfl, by rfl, by rfl⟩
  intro first lastRound s hNew r
  obtain ⟨hkeys, hfirst, hlast, hle⟩ := keys_of_New first lastRound s hNew
  constructor
  · intro h1 h2
    rw [getKeyPosition_in_range s r (by rw [hfirst]; exact h1) (by rw [hlast]; exact h2),
      hfirst]
  · intro h
    exact getKeyPosition_out_of_range s r (by rw [hfirst, hlast]; exact h)

/-- Witness for C5: the general clause applied to the signer over `[0, 1]`
at the in-range round `1` and the out-of-range round `2`. -/
theorem getKeyPosition_spec_witness :
    dSigner.getKeyPosition 1 = .ok 1 ∧ dSigner.getKeyPosition 2 = .error .outOfRange :=
  ⟨((getKeyPosition_spec.1 0 1 dSigner (by rfl) 1).1 (by decide) (by decide)),
    ((getKeyPosition_spec.1 0 1 dSigner (by rfl) 2).2 (by decide))⟩

/-- C7: for every signer over `[first, last]` and every message, signing at
any out-of-range round — in particular at `first - 1` (when `first > 0`, so
that `first - 1` denotes a round below the range; rounds are modelled as
naturals) and at `last + 1` — fails with `OutOfRange`, and it does so for
every one-time signing primitive `otS` alike: the rejection is computed
before and independently of any cryptographic signing work
(`Sign = SignWith otSign`). -/
theorem sign_out_of_range_rejected (first lastRound : Nat) (s : Signer) (m : Nat)
    (hNew : New first lastRound = .ok s) :
    (∀ otS r, (r < first ∨ lastRound < r) → SignWith otS s m r = .error .outOfRange) ∧
      (0 < first → s.Sign m (first - 1) = .error .outOfRange) ∧
      s.Sign m (lastRound + 1) = .error .outOfRange := by
  obtain ⟨hkeys, hfirst, hlast, hle⟩ := keys_of_New first lastRound s hNew
  have hbase : ∀ otS r, (r < first ∨ lastRound < r) → SignWith otS s m r = .error .outOfRange := by
    intro otS r h
    unfold SignWith
    rw [getKeyPosition_out_of_range s r (by rw [hfirst, hlast]; exact h)]
  refine ⟨hbase, ?_, ?_⟩
  · intro hpos
    exact hbase otSign (first - 1) (Or.inl (by omega))
  · exact hbase otSign (lastRound + 1) (Or.inr (by omega))

/-- Witness for C7: the signer over `[50, 100]` rejects rounds `49` and
`101`. -/
theorem sign_out_of_range_rejected_witness :
    dSigner50.Sign dMsg 49 = .error .outOfRange ∧
      dSigner50.Sign dMsg 101 = .error .outOfRange :=
  ⟨(sign_out_of_range_rejected 50 100 dSigner50 dMsg (by rfl)).2.1 (by decide),
    (sign_out_of_range_rejected 50 100 dSigner50 dMsg (by rfl)).2.2⟩

/-- C9: after a successful `New first last scheme`, the ephemeral key bank
holds exactly `last - first + 1` keypairs, and every keypair in the bank is
non-degenerate (distinct from the zero-valued placeholder keypair). -/
theorem keybank_length_and_nondegenerate (first lastRound : Nat) (s : Signer)
    (hNew : New first lastRound = .ok s) :
    s.EphemeralKeys.SignatureAlgorithms.length = lastRound - first + 1 ∧
      ∀ k ∈ s.EphemeralKeys.SignatureAlgorithms, k ≠ placeholderKey := by
  obtain ⟨h1, h2⟩ := (New_ok_iff first lastRound s).mp hNew
  subst h2
  constructor
  · simp
  · intro k hk
    simp only [List.mem_map, List.mem_range] at hk
    obtain ⟨i, -, hi⟩ := hk
    rw [← hi]
    simp [genKeyPair, placeholderKey]

/-- Witness for C9 at the concrete range `[0, 1]`. -/
theorem keybank_length_and_nondegenerate_witness :
    dSigner.EphemeralKeys.SignatureAlgorithms.length = 1 - 0 + 1 ∧
      ∀ k ∈ dSigner.EphemeralKeys.SignatureAlgorithms, k ≠ placeholderKey :=
  keybank_length_and_nondegenerate 0 1 dSigner (by rfl)

/-- C2: for every verifier and every signature whose carried `VKey.Pos` does
not equal `VKey.Round - FirstValid` — in particular after incrementing `Pos`,
setting `Pos` to `last + 1` or `first - 1`, incrementing `Round` with `Pos`
unchanged, or decrementing `Pos` with `Round` unchanged — `Verify` rejects
the signature, whatever its Merkle proof and byte signature are. -/
theorem verify_rejects_pos_round_mismatch (v : Verifier) (m : Nat) (sig : Signature)
    (h : sig.VKey.Pos ≠ sig.VKey.Round - v.FirstValid) :
    ∃ e, v.Verify m sig = .error e := by
  apply Verify_not_ok_error
  intro hok
  obtain ⟨-, -, h3, -, -⟩ := (Verify_eq_ok_iff v m sig).mp hok
  exact h h3.symm

/-- Witness for C2: the valid signature of `dSigner` with its position
incremented is rejected. -/
theorem verify_rejects_pos_round_mismatch_witness :
    ∃ e, dSigner.GetVerifier.Verify dMsg
      { dSig with VKey := { dSig.VKey with Pos := dSig.VKey.Pos + 1 } } = .error e :=
  verify_rejects_pos_round_mismatch dSigner.GetVerifier dMsg
    { dSig with VKey := { dSig.VKey with Pos := dSig.VKey.Pos + 1 } } (by decide)

/-- C10: `Verify` reports its outcome as an error value, not a boolean: it
returns success (`.ok ()`, the Go `nil`) exactly when the range check, the
position/round consistency check, the Merkle check, and the cryptographic
check all pass, and a non-success result is always an explicit error value. -/
theorem verify_error_api (v : Verifier) (m : Nat) (sig : Signature) :
    (v.Verify m sig = .ok () ↔
        (v.FirstValid ≤ sig.VKey.Round ∧ sig.VKey.Round ≤ v.LastValid ∧
          sig.VKey.Round - v.FirstValid = sig.VKey.Pos ∧
          recompute sig.VKey.Pos (leafDigest sig.VKey.Pos sig.VKey.VerifyingKey) sig.Proof
            = v.Root ∧
          otVerify sig.VKey.VerifyingKey m sig.ByteSignature = true)) ∧
      (v.Verify m sig ≠ .ok () → ∃ e, v.Verify m sig = .error e) :=
  ⟨Verify_eq_ok_iff v m sig, Verify_not_ok_error v m sig⟩

/-- Witness for C10: the four checks hold for the valid signature of
`dSigner`, so `Verify` returns success on it. -/
theorem verify_error_api_witness :
    dSigner.GetVerifier.Verify dMsg dSig = .ok () :=
  (verify_error_api dSigner.GetVerifier dMsg dSig).1.mpr
    ⟨by decide, by decide, by decide, by decide, by decide⟩

/-- C3: for every signature accepted by `Verify`, altering its Merkle proof
makes `Verify` reject: truncating it (dropping any suffix of sibling
digests, in particular removing the last one) is rejected, and so is any
distinct same-length proof (which covers replacing any sibling digest with a
different digest and any nontrivial reordering). -/
theorem verify_rejects_altered_proof (v : Verifier) (m : Nat) (sig : Signature)
    (hok : v.Verify m sig = .ok ()) :
    (∀ k, k < sig.Proof.length →
        ∃ e, v.Verify m { sig with Proof := sig.Proof.take k } = .error e) ∧
      (∀ pf, pf.length = sig.Proof.length → pf ≠ sig.Proof →
        ∃ e, v.Verify m { sig with Proof := pf } = .error e) := by
  obtain ⟨hr1, hr2, hpos, hmk, hcr⟩ := (Verify_eq_ok_iff v m sig).mp hok
  constructor
  · intro k hk
    apply Verify_not_ok_error
    intro hok2
    obtain ⟨-, -, -, hmk2, -⟩ := (Verify_eq_ok_iff v m _).mp hok2
    simp only at hmk2
    have hsplit : sig.Proof = sig.Proof.take k ++ sig.Proof.drop k :=
      (List.take_append_drop k sig.Proof).symm
    have hdrop : sig.Proof.drop k ≠ [] := by
      intro hnil
      have := List.drop_eq_nil_iff.mp hnil
      omega
    have hlt : recompute sig.VKey.Pos
        (leafDigest sig.VKey.Pos sig.VKey.VerifyingKey) (sig.Proof.take k) < v.Root := by
      conv_rhs => rw [← hmk, hsplit]
      rw [recompute_append]
      exact lt_recompute _ _ _ hdrop
    rw [hmk2] at hlt
    exact lt_irrefl _ hlt
  · intro pf hlen hne
    apply Verify_not_ok_error
    intro hok2
    obtain ⟨-, -, -, hmk2, -⟩ := (Verify_eq_ok_iff v m _).mp hok2
    simp only at hmk2
    rw [← hmk] at hmk2
    exact hne (recompute_inj_len pf sig.Proof _ _ _ hlen hmk2).2

/-- Witness for C3: removing the last (only) digest of `dSig`'s proof is
rejected. -/
theorem verify_rejects_altered_proof_witness :
    ∃ e, dSigner.GetVerifier.Verify dMsg
      { dSig with Proof := dSig.Proof.take 0 } = .error e :=
  (verify_rejects_altered_proof dSigner.GetVerifier dMsg dSig (by rfl)).1 0 (by decide)

/-- C4: for every signature accepted by `Verify`, mutating any byte of its
`ByteSignature` (all other fields unchanged) makes `Verify` reject. -/
theorem verify_rejects_mutated_bytesig (v : Verifier) (m : Nat) (sig : Signature)
    (i b : Nat) (hok : v.Verify m sig = .ok ())
    (hi : i < sig.ByteSignature.length) (hb : b ≠ sig.ByteSignature.getD i 0) :
    ∃ e, v.Verify m { sig with ByteSignature := sig.ByteSignature.set i b } = .error e := by
  obtain ⟨-, -, -, -, hcr⟩ := (Verify_eq_ok_iff v m sig).mp hok
  have hbs : sig.ByteSignature = [hash2 sig.VKey.VerifyingKey m] := by
    simpa [otVerify] using hcr
  apply Verify_not_ok_error
  intro hok2
  obtain ⟨-, -, -, -, hcr2⟩ := (Verify_eq_ok_iff v m _).mp hok2
  simp only at hcr2
  have hbs2 : sig.ByteSignature.set i b = [hash2 sig.VKey.VerifyingKey m] := by
    simpa [otVerify] using hcr2
  have : (sig.ByteSignature.set i b).getD i 0 = sig.ByteSignature.getD i 0 := by
    rw [hbs2, ← hbs]
  rw [getD_set_self _ _ _ _ hi] at this
  exact hb this

/-- Witness for C4: mutating the first byte of `dSig`'s byte signature is
rejected. -/
theorem verify_rejects_mutated_bytesig_witness :
    ∃ e, dSigner.GetVerifier.Verify dMsg
      { dSig with ByteSignature := dSig.ByteSignature.set 0 0 } = .error e :=
  verify_rejects_mutated_bytesig dSigner.GetVerifier dMsg dSig 0 0
    (by rfl) (by decide) (by decide)

/-- C1: for every signer constructed over `[first, last]` with
`first ≤ last` and every round `r` with `first ≤ r ≤ last`, signing a
message `m` at round `r` succeeds, and the verifier obtained from that
signer accepts the resulting signature against the same message `m`. -/
theorem sign_then_verify_ok (first lastRound : Nat) (s : Signer) (m r : Nat)
    (hNew : New first lastRound = .ok s) (h1 : first ≤ r) (h2 : r ≤ lastRound) :
    ∃ sig, s.Sign m r = .ok sig ∧ s.GetVerifier.Verify m sig = .ok () := by
  obtain ⟨hkeys, hfirst, hlast, hle⟩ := keys_of_New first lastRound s hNew
  have hlen : s.keys.length = lastRound - first + 1 := by
    rw [hkeys]
    simp
  have hposlt : r - first < s.keys.length := by omega
  have hkp : s.getKeyPosition r = .ok (r - first) := by
    rw [getKeyPosition_in_range s r (by rw [hfirst]; exact h1) (by rw [hlast]; exact h2),
      hfirst]
  have hkey : s.keys.getD (r - first) placeholderKey = genKeyPair (r - first) := by
    rw [hkeys]
    exact keys_getD_range _ _ _ (by omega)
  have hsign : s.Sign m r = .ok
      { VKey := { VerifyingKey := (genKeyPair (r - first)).vk, Pos := r - first, Round := r },
        Proof := auditPath (treeDepth s.numKeys) (leafFun s) (r - first),
        ByteSignature := otSign (genKeyPair (r - first)).sk m } := by
    unfold Signer.Sign SignWith
    rw [hkp]
    simp only [hkey]
  refine ⟨_, hsign, ?_⟩
  rw [Verify_eq_ok_iff]
  have hplt2 : r - first < 2 ^ treeDepth s.numKeys :=
    lt_of_lt_of_le hposlt (le_two_pow_treeDepth s.numKeys)
  have hleaf : leafFun s (r - first) = leafDigest (r - first) ((genKeyPair (r - first)).vk) := by
    unfold leafFun
    rw [if_pos hposlt, hkey]
  refine ⟨?_, ?_, ?_, ?_, ?_⟩
  · show s.first ≤ r
    rw [hfirst]
    exact h1
  · show r ≤ s.last
    rw [hlast]
    exact h2
  · show r - s.first = r - first
    rw [hfirst]
  · show recompute (r - first)
        (leafDigest (r - first) (genKeyPair (r - first)).vk)
        (auditPath (treeDepth s.numKeys) (leafFun s) (r - first)) = s.Root
    rw [← hleaf]
    exact recompute_auditPath _ (leafFun s) (r - first) (r - first) hplt2
      (Nat.mod_eq_of_lt hplt2)
  · show otVerify (genKeyPair (r - first)).vk m (otSign (genKeyPair (r - first)).sk m) = true
    simp [otVerify, otSign, genKeyPair]

/-- Witness for C1 on the signer over `[0, 1]` at round `1`. -/
theorem sign_then_verify_ok_witness :
    ∃ sig, dSigner.Sign dMsg 1 = .ok sig ∧
      dSigner.GetVerifier.Verify dMsg sig = .ok () :=
  sign_then_verify_ok 0 1 dSigner dMsg 1 (by rfl) (by decide) (by decide)

/-- C8: for the signer over `[50, 100]`, signing any message at round `51`
yields a signature with `VKey.Pos = 1` (the key position `getKeyPosition`
reports for round `51`), with `VKey.VerifyingKey` equal to the verifying key
of the key bank's keypair at position `1`, and whose embedded proof is
exactly the proof a separate `Prove [1]` call returns. -/
theorem signature_structure_50_100 (m : Nat) (s : Signer)
    (hNew : New 50 100 = .ok s) :
    ∃ sig, s.Sign m 51 = .ok sig ∧ sig.VKey.Pos = 1 ∧
      s.getKeyPosition 51 = .ok 1 ∧
      sig.VKey.VerifyingKey = (s.keys.getD 1 placeholderKey).vk ∧
      s.Prove [1] = .ok sig.Proof := by
  obtain ⟨h1, h2⟩ := (New_ok_iff 50 100 s).mp hNew
  subst h2
  exact ⟨_, rfl, rfl, rfl, rfl, rfl⟩

/-- Witness for C8 on the concrete signer over `[50, 100]`. -/
theorem signature_structure_50_100_witness :
    ∃ sig, dSigner50.Sign dMsg 51 = .ok sig ∧ sig.VKey.Pos = 1 ∧
      dSigner50.getKeyPosition 51 = .ok 1 ∧
      sig.VKey.VerifyingKey = (dSigner50.keys.getD 1 placeholderKey).vk ∧
      dSigner50.Prove [1] = .ok sig.Proof :=
  signature_structure_50_100 dMsg dSigner50 (by rfl)
